import Mathlib

/-!
Verification of the BotGuard pattern-set matcher
(`src/BotGuardLib/src/lib.rs`).

The Rust library keeps a `HashSet<String>` of lowercased regular-expression
fragments (`user_agent_patterns`) together with a compiled `Regex`
(`user_agents_regex`) built by joining all fragments with `|`
(`BotDetector::to_regex`); an empty join compiles `"^$"` instead.
`check_bot` lowercases its input (ASCII fold) and runs an unanchored
`is_match` against the compiled regex.

Embedding choices:
* Strings are modelled as `List Char`; `&str` values cross the API as
  `List Char` as well.
* The `regex` crate is third-party code that is not part of this
  repository, so its behaviour on the constructs the library uses is
  modelled here: a syntax tree `Regex`, a parser `parseRegex`
  (`Regex::new`, `none` = compile error) and an unanchored matcher
  `isMatch` (`Regex::is_match`).  The modelled syntax covers literals,
  escapes, `.`, the perl classes `\d \s \w` (ASCII ranges) and their
  negations, groups, alternation, the quantifiers `* + ?`, and the
  anchors `^` `$` with whole-haystack semantics (multiline off), with
  unanchored substring search.  Unsupported constructs (`[` classes,
  counted repetitions, lazy quantifiers, flags) are parse errors in the
  model.
* `HashSet<String>` is modelled as a duplicate-free list; iteration
  order (which in Rust is unspecified) is modelled as insertion order.
* A panicking `unwrap` on `Regex::new` is modelled by returning `none`
  from the operation.
-/

set_option maxHeartbeats 1000000
set_option maxRecDepth 4000

/-- ASCII-only lowercase fold of one character (`u8::to_ascii_lowercase`). -/
def asciiLower (c : Char) : Char :=
  if 'A' ≤ c ∧ c ≤ 'Z' then Char.ofNat (c.toNat + 32) else c

/-- ASCII-only lowercase fold of a string (`str::to_ascii_lowercase`). -/
def lowerStr (s : List Char) : List Char := s.map asciiLower

/-- Whitespace characters recognised by the model of `str::trim`
(the ASCII whitespace range; non-ASCII Unicode whitespace is outside the
modelled character set). -/
def isWSChar (c : Char) : Bool :=
  c = ' ' || c = '\t' || c = '\n' || c = '\r' || c = '\x0b' || c = '\x0c'

/-- Split a string at every newline, keeping a final empty piece
(helper for the model of `str::lines`). -/
def splitNl : List Char → List (List Char)
  | [] => [[]]
  | '\n' :: rest => [] :: splitNl rest
  | c :: rest =>
    match splitNl rest with
    | [] => [[c]]
    | l :: ls => (c :: l) :: ls

/-- Drop the final piece of a newline split when it is empty, so that a
trailing newline or an empty input contributes no extra line. -/
def dropFinalEmpty : List (List Char) → List (List Char)
  | [] => []
  | [l] => if l = [] then [] else [l]
  | l :: rest => l :: dropFinalEmpty rest

/-- Remove one trailing carriage return from a line (`str::lines` strips
`\r\n` endings). -/
def stripCR : List Char → List Char
  | [] => []
  | ['\r'] => []
  | c :: rest => c :: stripCR rest

/-- Model of `str::lines`. -/
def rustLines (t : List Char) : List (List Char) :=
  (dropFinalEmpty (splitNl t)).map stripCR

/-- Drop leading whitespace (helper for the model of `str::trim`). -/
def trimLeft : List Char → List Char
  | [] => []
  | c :: rest => if isWSChar c then trimLeft rest else c :: rest

/-- Model of `str::trim` over the modelled whitespace set. -/
def rustTrim (l : List Char) : List Char :=
  (trimLeft (trimLeft l.reverse).reverse)

/-- Insertion into the model of `HashSet<String>`: a duplicate-free list
to which a new element is appended (`HashSet::insert`; duplicates are
ignored). -/
def hsInsert (l : List (List Char)) (s : List Char) : List (List Char) :=
  if s ∈ l then l else l ++ [s]

/-- Character classes of the modelled regex subset (`\d`, `\s`, `\w`,
restricted to their ASCII ranges). -/
inductive ClsKind where
  | digit
  | space
  | word
deriving DecidableEq

/-- Membership test of one character in a perl class. -/
def clsMem : ClsKind → Char → Bool
  | .digit, c => decide ('0' ≤ c ∧ c ≤ '9')
  | .space, c => isWSChar c
  | .word, c =>
    decide (('a' ≤ c ∧ c ≤ 'z') ∨ ('A' ≤ c ∧ c ≤ 'Z') ∨ ('0' ≤ c ∧ c ≤ '9') ∨ c = '_')

/-- Syntax trees of the modelled regex subset. -/
inductive Regex where
  | eps
  | char (c : Char)
  | any
  | cls (k : ClsKind) (neg : Bool)
  | concat (r1 r2 : Regex)
  | alt (r1 r2 : Regex)
  | star (r : Regex)
  | bol
  | eol
deriving DecidableEq

/-- Iterate the one-step end positions of a starred regex: `starIter f n i`
collects every position reachable from `i` by at most `n` strictly
advancing steps of `f` (zero-width iterations of a star add nothing, so
only advancing steps are followed; `n` is always instantiated with the
haystack length plus one, which covers every strictly increasing chain). -/
def starIter (f : Nat → List Nat) : Nat → Nat → List Nat
  | 0, i => [i]
  | n + 1, i =>
    i :: ((f i).filter (fun j => decide (i < j))).flatMap (fun j => starIter f n j)

/-- End positions of a match of `r` that starts at position `i` of the
haystack `full` (anchors see the whole haystack: `^` only matches at
position 0, `$` only at the end). -/
def endsFrom (full : List Char) : Regex → Nat → List Nat
  | .eps, i => [i]
  | .char c, i =>
    if h : i < full.length then
      if full.get ⟨i, h⟩ = c then [i + 1] else []
    else []
  | .any, i =>
    if h : i < full.length then
      if full.get ⟨i, h⟩ = '\n' then [] else [i + 1]
    else []
  | .cls k neg, i =>
    if h : i < full.length then
      if xor (clsMem k (full.get ⟨i, h⟩)) neg then [i + 1] else []
    else []
  | .concat r1 r2, i => (endsFrom full r1 i).flatMap (fun j => endsFrom full r2 j)
  | .alt r1 r2, i => endsFrom full r1 i ++ endsFrom full r2 i
  | .star r, i => starIter (fun j => endsFrom full r j) (full.length + 1) i
  | .bol, i => if i = 0 then [i] else []
  | .eol, i => if i = full.length then [i] else []

/-- Unanchored match test (`Regex::is_match`): the regex matches starting
at some position of the haystack. -/
def isMatch (r : Regex) (s : List Char) : Bool :=
  (List.range (s.length + 1)).any (fun i => !(endsFrom s r i).isEmpty)

/-- Split a pattern at every top-level `|` (depth counts unescaped
parentheses; a trailing lone backslash stays in its piece and is
rejected later by the piece parser). -/
def splitTopAux : List Char → Nat → List Char → List (List Char)
  | [], _, cur => [cur.reverse]
  | '\\' :: c :: rest, d, cur => splitTopAux rest d (c :: '\\' :: cur)
  | ['\\'], _, cur => [('\\' :: cur).reverse]
  | '(' :: rest, d, cur => splitTopAux rest (d + 1) ('(' :: cur)
  | ')' :: rest, d, cur => splitTopAux rest (d - 1) (')' :: cur)
  | '|' :: rest, 0, cur => cur.reverse :: splitTopAux rest 0 []
  | c :: rest, d, cur => splitTopAux rest d (c :: cur)

/-- Top-level alternation split of a pattern. -/
def splitTop (s : List Char) : List (List Char) := splitTopAux s 0 []

/-- Depth bookkeeping of `splitTopAux` in isolation: the parenthesis
depth after a string, `none` when the string ends inside an escape. -/
def splitDepthFrom : List Char → Nat → Option Nat
  | [], d => some d
  | '\\' :: _ :: rest, d => splitDepthFrom rest d
  | ['\\'], _ => none
  | '(' :: rest, d => splitDepthFrom rest (d + 1)
  | ')' :: rest, d => splitDepthFrom rest (d - 1)
  | _ :: rest, d => splitDepthFrom rest d

/-- Scan for the parenthesis that closes a group, returning the group
content and the remainder after the closing parenthesis. -/
def splitGroupAux : List Char → Nat → Option (List Char × List Char)
  | [], _ => none
  | '\\' :: c :: rest, k =>
    (splitGroupAux rest k).map (fun pr => ('\\' :: c :: pr.1, pr.2))
  | ['\\'], _ => none
  | '(' :: rest, k => (splitGroupAux rest (k + 1)).map (fun pr => ('(' :: pr.1, pr.2))
  | ')' :: rest, 0 => some ([], rest)
  | ')' :: rest, k + 1 => (splitGroupAux rest k).map (fun pr => (')' :: pr.1, pr.2))
  | c :: rest, k => (splitGroupAux rest k).map (fun pr => (c :: pr.1, pr.2))

/-- Meaning of an escape sequence: a perl class, a control character, an
escaped literal; escapes of other alphanumerics are errors. -/
def escAtom (e : Char) : Option Regex :=
  if e = 'd' then some (.cls .digit false)
  else if e = 'D' then some (.cls .digit true)
  else if e = 's' then some (.cls .space false)
  else if e = 'S' then some (.cls .space true)
  else if e = 'w' then some (.cls .word false)
  else if e = 'W' then some (.cls .word true)
  else if e = 'n' then some (.char '\n')
  else if e = 't' then some (.char '\t')
  else if e = 'r' then some (.char '\r')
  else if e.isAlphanum then none
  else some (.char e)

/-- Parse the character after a backslash as an escaped atom. -/
def escPart : List Char → Option (Regex × Bool × List Char)
  | [] => none
  | e :: rest => (escAtom e).map (fun a => (a, true, rest))

/-- Parse the inside and remainder of a group once its opening
parenthesis has been consumed. -/
def groupPart (pAlt : List Char → Option Regex) (rest : List Char) :
    Option (Regex × Bool × List Char) :=
  (splitGroupAux rest 0).bind (fun cr => (pAlt cr.1).map (fun r => (r, true, cr.2)))

/-- Parse one atom of a concatenation: the resulting regex, whether a
quantifier may follow (anchors are not quantifiable), and the rest of
the input.  Group contents are parsed by the supplied alternation
parser. -/
def parseAtomF (pAlt : List Char → Option Regex) : List Char → Option (Regex × Bool × List Char)
  | [] => none
  | c :: rest =>
    if c = '(' then groupPart pAlt rest
    else if c = ')' then none
    else if c = '|' then none
    else if c = '*' then none
    else if c = '+' then none
    else if c = '?' then none
    else if c = '[' then none
    else if c = '\x7b' then none
    else if c = '^' then some (.bol, false, rest)
    else if c = '$' then some (.eol, false, rest)
    else if c = '\\' then escPart rest
    else if c = '.' then some (.any, true, rest)
    else some (.char c, true, rest)

/-- Attach an optional quantifier to a freshly parsed atom. -/
def quantApply (a : Regex) (q : Bool) : List Char → Option (Regex × List Char)
  | [] => some (a, [])
  | c :: rest =>
    if c = '*' then (if q then some (.star a, rest) else none)
    else if c = '+' then (if q then some (.concat a (.star a), rest) else none)
    else if c = '?' then (if q then some (.alt .eps a, rest) else none)
    else some (a, c :: rest)

/-- Parse a bar-free piece as a concatenation of quantified atoms.  The
fuel argument is always instantiated with the piece length plus one. -/
def parseSeqF (pAlt : List Char → Option Regex) : Nat → List Char → Option Regex
  | 0, _ => none
  | _ + 1, [] => some .eps
  | fuel + 1, c :: rest =>
    (parseAtomF pAlt (c :: rest)).bind (fun aqr =>
      (quantApply aqr.1 aqr.2.1 aqr.2.2).bind (fun ar =>
        (parseSeqF pAlt fuel ar.2).map (fun r => .concat ar.1 r)))

/-- Combine the parsed alternatives of a pattern. -/
def altOf (r : Regex) : List Regex → Regex
  | [] => r
  | r2 :: rs => .alt r (altOf r2 rs)

/-- Parse each piece of a split pattern, failing if any piece fails. -/
def parsePieces (pf : List Char → Option Regex) : List (List Char) → Option (List Regex)
  | [] => some []
  | p :: ps => (pf p).bind (fun r => (parsePieces pf ps).map (fun rs => r :: rs))

/-- Combine a parsed piece list into one alternation, failing on an
empty list (the split never produces one). -/
def altsOf : List Regex → Option Regex
  | [] => none
  | r :: rs => some (altOf r rs)

/-- Fuelled pattern parser: split at top-level bars and parse each piece;
the fuel bounds the group-nesting recursion and is adequate whenever it
exceeds the pattern length. -/
def parseAltF : Nat → List Char → Option Regex
  | 0, _ => none
  | fuel + 1, s =>
    (parsePieces (fun p => parseSeqF (parseAltF fuel) (p.length + 1) p) (splitTop s)).bind altsOf

/-- Model of `Regex::new` on the modelled subset: `none` is a compile
error. -/
def parseRegex (s : List Char) : Option Regex := parseAltF (s.length + 1) s

/-- Whether one stored fragment, compiled on its own, matches somewhere
in a haystack (used to state the individual-fragment view of matching). -/
def fragMatch (p : List Char) (s : List Char) : Bool :=
  match parseRegex p with
  | some r => isMatch r s
  | none => false

/-- Join a fragment list with `|`
(`regex_entries.iter().cloned().collect::<Vec<_>>().join("|")`). -/
def joinBar : List (List Char) → List Char
  | [] => []
  | [p] => p
  | p :: ps => p ++ '|' :: joinBar ps

/-- Model of `BotDetector::parse_lines`: the distinct non-blank lines of
the (already lowercased) text, kept verbatim, in first-occurrence
order. -/
def parse_lines (t : List Char) : List (List Char) :=
  ((rustLines t).filter (fun l => !(l.all isWSChar))).foldl hsInsert []

/-- Model of `BotDetector::to_regex`: compile the bar-join of the
fragment set, substituting `"^$"` for an empty join; `none` models the
panicking `unwrap` on a failed compile. -/
def to_regex (ps : List (List Char)) : Option Regex :=
  let pattern := joinBar ps
  if pattern = [] then parseRegex ['^', '$'] else parseRegex pattern

/-- Model of the `BotDetector` struct: the fragment set and the compiled
regex. -/
structure BotDetector where
  user_agents_regex : Regex
  user_agent_patterns : List (List Char)
deriving DecidableEq

/-- Model of `BotDetector::new`: lowercase the text, parse its lines into
the fragment set, compile the joined regex. -/
def BotDetector.new (t : List Char) : Option BotDetector :=
  (to_regex (parse_lines (lowerStr t))).map (fun r => ⟨r, parse_lines (lowerStr t)⟩)

/-- Model of `BotDetector::default` with the `include-default-BotDetector`
feature disabled, where `_PATTERNS` is the empty string. -/
def BotDetector.default : Option BotDetector := BotDetector.new []

/-- Model of `BotDetector::append`: insert each lowercased fragment, then
rebuild the compiled regex (`update_regex`). -/
def BotDetector.append (d : BotDetector) (fs : List (List Char)) : Option BotDetector :=
  (to_regex (fs.foldl (fun acc f => hsInsert acc (lowerStr f)) d.user_agent_patterns)).map
    (fun r => ⟨r, fs.foldl (fun acc f => hsInsert acc (lowerStr f)) d.user_agent_patterns⟩)

/-- Model of `BotDetector::remove`: delete each lowercased fragment, then
rebuild the compiled regex (`update_regex`). -/
def BotDetector.remove (d : BotDetector) (fs : List (List Char)) : Option BotDetector :=
  (to_regex (fs.foldl (fun acc f => acc.filter (fun p => p ≠ lowerStr f))
      d.user_agent_patterns)).map
    (fun r => ⟨r, fs.foldl (fun acc f => acc.filter (fun p => p ≠ lowerStr f))
      d.user_agent_patterns⟩)

/-- Model of `BotDetector::check_bot`: lowercase the input and run the
compiled regex unanchored. -/
def BotDetector.check_bot (d : BotDetector) (ua : List Char) : Bool :=
  isMatch d.user_agents_regex (lowerStr ua)

/-- Consistency invariant of the struct: the stored compiled regex is
the one `to_regex` builds from the stored fragment set. -/
def BotDetector.inv (d : BotDetector) : Prop :=
  to_regex d.user_agent_patterns = some d.user_agents_regex

instance (d : BotDetector) : Decidable d.inv :=
  inferInstanceAs (Decidable (_ = _))

/-- Compiled form of the empty fragment set (`Regex::new("^$")`). -/
def emptyPat : Regex := .concat .bol (.concat .eol .eps)

/-- Fragment list stored by the spec's description of construction:
each non-blank line after trimming (`Modelled from the spec:` the spec's
§4.1 says lines are trimmed before storage, which the code does not do;
this definition follows the spec's words for comparison). -/
def specLinesTrimmed (t : List Char) : List (List Char) :=
  (((rustLines t).map rustTrim).filter (fun l => l ≠ [])).foldl hsInsert []

/-! ### Lemmas about the top-level alternation split -/

theorem splitTopAux_ne_nil : ∀ (s : List Char) (d : Nat) (cur : List Char),
    splitTopAux s d cur ≠ [] := by
  intro s d cur
  induction s, d, cur using splitTopAux.induct <;> simp [splitTopAux, *]

/-- Rebuilding the pieces of a split with `|` gives back the pattern. -/
theorem joinBar_cons_ne_nil (p : List Char) (ps : List (List Char)) (h : ps ≠ []) :
    joinBar (p :: ps) = p ++ '|' :: joinBar ps := by
  cases ps with
  | nil => exact absurd rfl h
  | cons q qs => rfl

theorem joinBar_splitTopAux : ∀ (s : List Char) (d : Nat) (cur : List Char),
    joinBar (splitTopAux s d cur) = cur.reverse ++ s := by
  intro s d cur
  induction s, d, cur using splitTopAux.induct with
  | case6 rest cur ih =>
    simp only [splitTopAux]
    rw [joinBar_cons_ne_nil _ _ (splitTopAux_ne_nil rest 0 []), ih]
    simp
  | _ => simp [splitTopAux, joinBar, *]

theorem joinBar_splitTop (s : List Char) : joinBar (splitTop s) = s :=
  joinBar_splitTopAux s 0 []

theorem length_mem_splitTopAux : ∀ (s : List Char) (d : Nat) (cur p : List Char),
    p ∈ splitTopAux s d cur → p.length ≤ cur.length + s.length := by
  intro s d cur
  induction s, d, cur using splitTopAux.induct with
  | case6 rest cur ih =>
    intro p hp
    simp only [splitTopAux, List.mem_cons] at hp
    rcases hp with hp | hp
    · simp [hp]
    · have := ih p hp
      simp only [List.length_cons, List.length_nil] at this ⊢
      omega
  | case1 d cur =>
    intro p hp
    simp only [splitTopAux, List.mem_singleton] at hp
    simp [hp]
  | case3 d cur =>
    intro p hp
    simp only [splitTopAux, List.mem_singleton] at hp
    simp [hp]
  | case2 c rest d cur ih =>
    intro p hp
    simp only [splitTopAux] at hp
    have := ih p hp
    simp only [List.length_cons] at this ⊢
    omega
  | case4 rest d cur ih =>
    intro p hp
    simp only [splitTopAux] at hp
    have := ih p hp
    simp only [List.length_cons] at this ⊢
    omega
  | case5 rest d cur ih =>
    intro p hp
    simp only [splitTopAux] at hp
    have := ih p hp
    simp only [List.length_cons] at this ⊢
    omega
  | case7 c rest d cur h1 h2 h3 h4 h5 ih =>
    intro p hp
    rw [splitTopAux.eq_7 d cur c rest h1 h2 h3 h4 h5] at hp
    have := ih p hp
    simp only [List.length_cons] at this ⊢
    omega

theorem length_mem_splitTop (s p : List Char) (h : p ∈ splitTop s) :
    p.length ≤ s.length := by
  have := length_mem_splitTopAux s 0 [] p h
  simpa using this

/-! ### Lemmas about group scanning and depth bookkeeping -/

theorem splitGroupAux_eq : ∀ (s : List Char) (k : Nat) (c r : List Char),
    splitGroupAux s k = some (c, r) → s = c ++ ')' :: r := by
  intro s k
  induction s, k using splitGroupAux.induct with
  | case1 k => simp [splitGroupAux]
  | case2 c2 rest k ih =>
    intro c r h
    simp only [splitGroupAux, Option.map_eq_some'] at h
    obtain ⟨⟨c', r'⟩, h1, h2⟩ := h
    cases h2
    simpa using ih c' r' h1
  | case3 k => simp [splitGroupAux]
  | case4 rest k ih =>
    intro c r h
    simp only [splitGroupAux, Option.map_eq_some'] at h
    obtain ⟨⟨c', r'⟩, h1, h2⟩ := h
    cases h2
    simpa using ih c' r' h1
  | case5 rest => simp [splitGroupAux]
  | case6 rest k ih =>
    intro c r h
    simp only [splitGroupAux, Option.map_eq_some'] at h
    obtain ⟨⟨c', r'⟩, h1, h2⟩ := h
    cases h2
    simpa using ih c' r' h1
  | case7 ch rest k h1 h2 h3 h4 h5 ih =>
    intro c r h
    rw [splitGroupAux.eq_7 k ch rest h1 h2 h3 h4 h5] at h
    simp only [Option.map_eq_some'] at h
    obtain ⟨⟨c', r'⟩, hh1, hh2⟩ := h
    cases hh2
    simpa using ih c' r' hh1

theorem splitGroupAux_depth : ∀ (s : List Char) (k : Nat) (c r : List Char),
    splitGroupAux s k = some (c, r) → ∀ d : Nat, splitDepthFrom c (d + k + 1) = some (d + 1) := by
  intro s k
  induction s, k using splitGroupAux.induct with
  | case1 k => simp [splitGroupAux]
  | case2 c2 rest k ih =>
    intro c r h d
    simp only [splitGroupAux, Option.map_eq_some'] at h
    obtain ⟨⟨c', r'⟩, h1, h2⟩ := h
    cases h2
    simpa only [splitDepthFrom] using ih c' r' h1 d
  | case3 k => simp [splitGroupAux]
  | case4 rest k ih =>
    intro c r h d
    simp only [splitGroupAux, Option.map_eq_some'] at h
    obtain ⟨⟨c', r'⟩, h1, h2⟩ := h
    cases h2
    have := ih c' r' h1 d
    simp only [splitDepthFrom]
    have harith : d + k + 1 + 1 = d + (k + 1) + 1 := by omega
    rw [harith]
    exact this
  | case5 rest =>
    intro c r h d
    simp only [splitGroupAux, Option.some_inj] at h
    obtain ⟨h1, h2⟩ := Prod.mk.injEq .. ▸ h
    subst h1
    simp [splitDepthFrom]
  | case6 rest k ih =>
    intro c r h d
    simp only [splitGroupAux, Option.map_eq_some'] at h
    obtain ⟨⟨c', r'⟩, h1, h2⟩ := h
    cases h2
    have := ih c' r' h1 d
    simp only [splitDepthFrom]
    have harith : d + Nat.succ k + 1 - 1 = d + k + 1 := by omega
    rw [harith]
    exact this
  | case7 ch rest k h1 h2 h3 h4 h5 ih =>
    intro c r h d
    rw [splitGroupAux.eq_7 k ch rest h1 h2 h3 h4 h5] at h
    simp only [Option.map_eq_some'] at h
    obtain ⟨⟨c', r'⟩, hh1, hh2⟩ := h
    cases hh2
    have := ih c' r' hh1 d
    have hbs : ch ≠ '\\' := by
      intro hc
      cases rest with
      | nil => exact h2 hc rfl
      | cons a b => exact h1 a b hc rfl
    have hcp : ch ≠ ')' := by
      intro hc
      cases k with
      | zero => exact h4 hc rfl
      | succ k2 => exact h5 k2 hc rfl
    rw [splitDepthFrom.eq_6 (d + k + 1) ch c' (fun a b hc _ => hbs hc) (fun hc _ => hbs hc) h3
      (fun hc => hcp hc)]
    exact this

theorem splitDepthFrom_append : ∀ (a : List Char) (d : Nat) (b : List Char) (d' : Nat),
    splitDepthFrom a d = some d' → splitDepthFrom (a ++ b) d = splitDepthFrom b d' := by
  intro a d
  induction a, d using splitDepthFrom.induct with
  | case1 d =>
    intro b d' h
    simp only [splitDepthFrom, Option.some_inj] at h
    subst h
    simp
  | case2 c2 rest d ih =>
    intro b d' h
    simp only [splitDepthFrom] at h ⊢
    exact ih b d' h
  | case3 d =>
    intro b d' h
    simp [splitDepthFrom] at h
  | case4 rest d ih =>
    intro b d' h
    simp only [splitDepthFrom] at h ⊢
    exact ih b d' h
  | case5 rest d ih =>
    intro b d' h
    simp only [splitDepthFrom] at h ⊢
    exact ih b d' h
  | case6 ch rest d h1 h2 h3 h4 ih =>
    intro b d' h
    have hbs : ch ≠ '\\' := by
      intro hc
      cases rest with
      | nil => exact h2 hc rfl
      | cons x y => exact h1 x y hc rfl
    rw [splitDepthFrom.eq_6 d ch rest (fun x y hc _ => hbs hc) (fun hc _ => hbs hc) h3 h4] at h
    rw [List.cons_append,
      splitDepthFrom.eq_6 d ch (rest ++ b) (fun x y hc _ => hbs hc) (fun hc _ => hbs hc) h3 h4]
    exact ih b d' h

/-- Splitting a pattern extended with a bar and a second pattern: when
the first pattern is balanced, the split is the concatenation of the two
splits. -/
theorem splitTopAux_bar_append : ∀ (f : List Char) (d : Nat) (cur g : List Char),
    splitDepthFrom f d = some 0 →
    splitTopAux (f ++ '|' :: g) d cur = splitTopAux f d cur ++ splitTop g := by
  intro f d
  induction f, d using splitDepthFrom.induct with
  | case1 d =>
    intro cur g h
    simp only [splitDepthFrom, Option.some_inj] at h
    subst h
    simp [splitTopAux, splitTop]
  | case2 c2 rest d ih =>
    intro cur g h
    simp only [splitDepthFrom] at h
    simp only [List.cons_append, splitTopAux]
    exact ih _ g h
  | case3 d =>
    intro cur g h
    simp [splitDepthFrom] at h
  | case4 rest d ih =>
    intro cur g h
    simp only [splitDepthFrom] at h
    simp only [List.cons_append, splitTopAux]
    exact ih _ g h
  | case5 rest d ih =>
    intro cur g h
    simp only [splitDepthFrom] at h
    simp only [List.cons_append, splitTopAux]
    exact ih _ g h
  | case6 ch rest d h1 h2 h3 h4 ih =>
    intro cur g h
    have hbs : ch ≠ '\\' := by
      intro hc
      cases rest with
      | nil => exact h2 hc rfl
      | cons x y => exact h1 x y hc rfl
    rw [splitDepthFrom.eq_6 d ch rest (fun x y hc _ => hbs hc) (fun hc _ => hbs hc) h3 h4] at h
    by_cases hbar : ch = '|'
    · subst hbar
      cases d with
      | zero =>
        simp only [List.cons_append, splitTopAux, List.append_eq]
        rw [ih _ g h]
      | succ d2 =>
        rw [List.cons_append,
          splitTopAux.eq_7 (d2 + 1) cur '|' (rest ++ '|' :: g)
            (fun x y hc _ => hbs hc) (fun hc _ => hbs hc) (fun hc => h3 hc) (fun hc => h4 hc)
            (fun _ hd => by simp at hd),
          splitTopAux.eq_7 (d2 + 1) cur '|' rest
            (fun x y hc _ => hbs hc) (fun hc _ => hbs hc) (fun hc => h3 hc) (fun hc => h4 hc)
            (fun _ hd => by simp at hd)]
        exact ih _ g h
    · rw [List.cons_append,
        splitTopAux.eq_7 d cur ch (rest ++ '|' :: g)
          (fun x y hc _ => hbs hc) (fun hc _ => hbs hc) h3 h4 (fun hc _ => hbar hc),
        splitTopAux.eq_7 d cur ch rest
          (fun x y hc _ => hbs hc) (fun hc _ => hbs hc) h3 h4 (fun hc _ => hbar hc)]
      exact ih _ g h

theorem splitTop_bar_append (f g : List Char) (h : splitDepthFrom f 0 = some 0) :
    splitTop (f ++ '|' :: g) = splitTop f ++ splitTop g :=
  splitTopAux_bar_append f 0 [] g h

/-- Depth neutrality of a bar-join of depth-neutral pieces. -/
theorem splitDepthFrom_joinBar : ∀ (ps : List (List Char)),
    (∀ p ∈ ps, ∀ d : Nat, splitDepthFrom p d = some d) →
    ∀ d : Nat, splitDepthFrom (joinBar ps) d = some d := by
  intro ps
  induction ps with
  | nil => intro _ d; simp [joinBar, splitDepthFrom]
  | cons p ps ih =>
    intro hall d
    cases ps with
    | nil => exact hall p (by simp) d
    | cons q qs =>
      rw [joinBar_cons_ne_nil p (q :: qs) (by simp)]
      rw [splitDepthFrom_append p d ('|' :: joinBar (q :: qs)) d (hall p (by simp) d)]
      have hq : ∀ p2 ∈ q :: qs, ∀ d2 : Nat, splitDepthFrom p2 d2 = some d2 := by
        intro p2 hp2 d2
        exact hall p2 (by simp [hp2]) d2
      have : splitDepthFrom ('|' :: joinBar (q :: qs)) d = splitDepthFrom (joinBar (q :: qs)) d := by
        rw [splitDepthFrom.eq_6 d '|' (joinBar (q :: qs))
          (fun x y hc _ => by simp at hc) (fun hc _ => by simp at hc)
          (fun hc => by simp at hc) (fun hc => by simp at hc)]
      rw [this]
      exact ih hq d

/-! ### Lemmas about piece lists -/

theorem parsePieces_cong : ∀ (l : List (List Char)) (pf pf' : List Char → Option Regex)
    (rs : List Regex), (∀ p ∈ l, ∀ r, pf p = some r → pf' p = some r) →
    parsePieces pf l = some rs → parsePieces pf' l = some rs := by
  intro l
  induction l with
  | nil => intro pf pf' rs _ h; simpa [parsePieces] using h
  | cons p ps ih =>
    intro pf pf' rs hc h
    simp only [parsePieces, Option.bind_eq_some, Option.map_eq_some'] at h ⊢
    obtain ⟨r, hr, rs2, hrs2, hcons⟩ := h
    exact ⟨r, hc p (by simp) r hr,
      rs2, ih pf pf' rs2 (fun p2 hp2 r2 hr2 => hc p2 (by simp [hp2]) r2 hr2) hrs2, hcons⟩

theorem parsePieces_append_of (pf : List Char → Option Regex) :
    ∀ (l1 l2 : List (List Char)) (rs1 rs2 : List Regex),
    parsePieces pf l1 = some rs1 → parsePieces pf l2 = some rs2 →
    parsePieces pf (l1 ++ l2) = some (rs1 ++ rs2) := by
  intro l1
  induction l1 with
  | nil =>
    intro l2 rs1 rs2 h1 h2
    simp only [parsePieces, Option.some_inj] at h1
    subst h1
    simpa using h2
  | cons p ps ih =>
    intro l2 rs1 rs2 h1 h2
    simp only [parsePieces, Option.bind_eq_some, Option.map_eq_some'] at h1
    obtain ⟨r, hr, rsp, hrsp, hcons⟩ := h1
    subst hcons
    simp only [List.cons_append, parsePieces, Option.bind_eq_some, Option.map_eq_some']
    exact ⟨r, hr, rsp ++ rs2, ih l2 rsp rs2 hrsp h2, rfl⟩

theorem parsePieces_mem : ∀ (l : List (List Char)) (pf : List Char → Option Regex)
    (rs : List Regex), parsePieces pf l = some rs → ∀ p ∈ l, ∃ r, pf p = some r := by
  intro l
  induction l with
  | nil => simp
  | cons p ps ih =>
    intro pf rs h p2 hp2
    simp only [parsePieces, Option.bind_eq_some, Option.map_eq_some'] at h
    obtain ⟨r, hr, rs2, hrs2, _⟩ := h
    rcases List.mem_cons.mp hp2 with hp2 | hp2
    · exact ⟨r, hp2 ▸ hr⟩
    · exact ih pf rs2 hrs2 p2 hp2

theorem parsePieces_length : ∀ (l : List (List Char)) (pf : List Char → Option Regex)
    (rs : List Regex), parsePieces pf l = some rs → rs.length = l.length := by
  intro l
  induction l with
  | nil => intro pf rs h; simp only [parsePieces, Option.some_inj] at h; simp [← h]
  | cons p ps ih =>
    intro pf rs h
    simp only [parsePieces, Option.bind_eq_some, Option.map_eq_some'] at h
    obtain ⟨r, _, rs2, hrs2, hcons⟩ := h
    subst hcons
    simp [ih pf rs2 hrs2]

/-! ### Inversion and transfer lemmas for the atom parser -/

/-- Inversion of a successful atom parse into the possible shapes of the
consumed input. -/
theorem parseAtomF_inv (pa : List Char → Option Regex) (s : List Char) (a : Regex) (q : Bool)
    (rest1 : List Char) (h : parseAtomF pa s = some (a, q, rest1)) :
    (∃ content r, s = '(' :: (content ++ ')' :: rest1) ∧
      splitGroupAux (content ++ ')' :: rest1) 0 = some (content, rest1) ∧
      pa content = some r ∧ a = r ∧ q = true) ∨
    (s = '^' :: rest1 ∧ a = Regex.bol ∧ q = false) ∨
    (s = '$' :: rest1 ∧ a = Regex.eol ∧ q = false) ∨
    (∃ e, s = '\\' :: e :: rest1 ∧ escAtom e = some a ∧ q = true) ∨
    (s = '.' :: rest1 ∧ a = Regex.any ∧ q = true) ∨
    (∃ c, s = c :: rest1 ∧ a = Regex.char c ∧ q = true ∧ c ≠ '\\' ∧ c ≠ '(' ∧ c ≠ ')' ∧
      c ≠ '|' ∧ c ≠ '*' ∧ c ≠ '+' ∧ c ≠ '?' ∧ c ≠ '[' ∧ c ≠ '\x7b' ∧ c ≠ '^' ∧ c ≠ '$' ∧
      c ≠ '.') := by
  cases s with
  | nil => exact Option.noConfusion h
  | cons c rest =>
    rw [parseAtomF.eq_2] at h
    by_cases hc1 : c = '('
    · rw [if_pos hc1] at h
      subst hc1
      unfold groupPart at h
      rw [Option.bind_eq_some] at h
      obtain ⟨⟨content, rest'⟩, hsg, hmap⟩ := h
      rw [Option.map_eq_some'] at hmap
      obtain ⟨r, hpa, heq⟩ := hmap
      simp only [Prod.mk.injEq] at heq
      obtain ⟨ha, hq, hr1⟩ := heq
      subst hr1
      have hrec := splitGroupAux_eq _ _ _ _ hsg
      refine Or.inl ⟨content, r, by rw [hrec], ?_, hpa, ha.symm, hq.symm⟩
      rw [← hrec]
      exact hsg
    rw [if_neg hc1] at h
    by_cases hc2 : c = ')'
    · rw [if_pos hc2] at h; exact Option.noConfusion h
    rw [if_neg hc2] at h
    by_cases hc3 : c = '|'
    · rw [if_pos hc3] at h; exact Option.noConfusion h
    rw [if_neg hc3] at h
    by_cases hc4 : c = '*'
    · rw [if_pos hc4] at h; exact Option.noConfusion h
    rw [if_neg hc4] at h
    by_cases hc5 : c = '+'
    · rw [if_pos hc5] at h; exact Option.noConfusion h
    rw [if_neg hc5] at h
    by_cases hc6 : c = '?'
    · rw [if_pos hc6] at h; exact Option.noConfusion h
    rw [if_neg hc6] at h
    by_cases hc7 : c = '['
    · rw [if_pos hc7] at h; exact Option.noConfusion h
    rw [if_neg hc7] at h
    by_cases hc8 : c = '\x7b'
    · rw [if_pos hc8] at h; exact Option.noConfusion h
    rw [if_neg hc8] at h
    by_cases hc9 : c = '^'
    · rw [if_pos hc9] at h
      subst hc9
      simp only [Option.some_inj, Prod.mk.injEq] at h
      obtain ⟨ha, hq, hr1⟩ := h
      subst hr1
      exact Or.inr (Or.inl ⟨rfl, ha.symm, hq.symm⟩)
    rw [if_neg hc9] at h
    by_cases hc10 : c = '$'
    · rw [if_pos hc10] at h
      subst hc10
      simp only [Option.some_inj, Prod.mk.injEq] at h
      obtain ⟨ha, hq, hr1⟩ := h
      subst hr1
      exact Or.inr (Or.inr (Or.inl ⟨rfl, ha.symm, hq.symm⟩))
    rw [if_neg hc10] at h
    by_cases hc11 : c = '\\'
    · rw [if_pos hc11] at h
      subst hc11
      cases rest with
      | nil => exact Option.noConfusion h
      | cons e rest' =>
        simp only [escPart, Option.map_eq_some'] at h
        obtain ⟨a2, hesc, heq⟩ := h
        simp only [Prod.mk.injEq] at heq
        obtain ⟨ha, hq, hr1⟩ := heq
        subst hr1
        exact Or.inr (Or.inr (Or.inr (Or.inl ⟨e, rfl, ha ▸ hesc, hq.symm⟩)))
    rw [if_neg hc11] at h
    by_cases hc12 : c = '.'
    · rw [if_pos hc12] at h
      subst hc12
      simp only [Option.some_inj, Prod.mk.injEq] at h
      obtain ⟨ha, hq, hr1⟩ := h
      subst hr1
      exact Or.inr (Or.inr (Or.inr (Or.inr (Or.inl ⟨rfl, ha.symm, hq.symm⟩))))
    rw [if_neg hc12] at h
    simp only [Option.some_inj, Prod.mk.injEq] at h
    obtain ⟨ha, hq, hr1⟩ := h
    subst hr1
    exact Or.inr (Or.inr (Or.inr (Or.inr (Or.inr
      ⟨c, rfl, ha.symm, hq.symm, hc11, hc1, hc2, hc3, hc4, hc5, hc6, hc7, hc8, hc9, hc10,
        hc12⟩))))

/-- A character that is not a backslash or parenthesis leaves the
bracket depth unchanged. -/
theorem splitDepthFrom_cons_neutral (c : Char) (rest : List Char) (d : Nat)
    (h1 : c ≠ '\\') (h2 : c ≠ '(') (h3 : c ≠ ')') :
    splitDepthFrom (c :: rest) d = splitDepthFrom rest d := by
  rw [splitDepthFrom.eq_6 d c rest (fun x y hc _ => h1 hc) (fun hc _ => h1 hc) h2 h3]

theorem parseAtomF_len (pa : List Char → Option Regex) (s : List Char) (a : Regex) (q : Bool)
    (rest1 : List Char) (h : parseAtomF pa s = some (a, q, rest1)) :
    rest1.length < s.length := by
  rcases parseAtomF_inv pa s a q rest1 h with
    ⟨content, r, hs, _, _, _, _⟩ | ⟨hs, _, _⟩ | ⟨hs, _, _⟩ | ⟨e, hs, _, _⟩ | ⟨hs, _, _⟩ |
    ⟨c, hs, _⟩ <;>
  subst hs <;> simp [List.length_append] <;> omega

theorem parseAtomF_depth (pa : List Char → Option Regex) (s : List Char) (a : Regex) (q : Bool)
    (rest1 : List Char) (h : parseAtomF pa s = some (a, q, rest1)) :
    ∀ d : Nat, splitDepthFrom s d = splitDepthFrom rest1 d := by
  intro d
  rcases parseAtomF_inv pa s a q rest1 h with
    ⟨content, r, hs, hsg, _, _, _⟩ | ⟨hs, _, _⟩ | ⟨hs, _, _⟩ | ⟨e, hs, _, _⟩ | ⟨hs, _, _⟩ |
    ⟨c, hs, _, _, hne1, hne2, hne3, _⟩
  · subst hs
    have hcd : splitDepthFrom content (d + 1) = some (d + 1) := by
      have := splitGroupAux_depth _ _ _ _ hsg d
      simpa using this
    have h1 : splitDepthFrom ('(' :: (content ++ ')' :: rest1)) d =
        splitDepthFrom (content ++ ')' :: rest1) (d + 1) := by
      simp only [splitDepthFrom]
    rw [h1, splitDepthFrom_append content (d + 1) (')' :: rest1) (d + 1) hcd]
    have h2 : splitDepthFrom (')' :: rest1) (d + 1) = splitDepthFrom rest1 d := by
      simp only [splitDepthFrom, Nat.add_sub_cancel]
    rw [h2]
  · subst hs
    exact splitDepthFrom_cons_neutral _ _ _ (by decide) (by decide) (by decide)
  · subst hs
    exact splitDepthFrom_cons_neutral _ _ _ (by decide) (by decide) (by decide)
  · subst hs
    simp only [splitDepthFrom]
  · subst hs
    exact splitDepthFrom_cons_neutral _ _ _ (by decide) (by decide) (by decide)
  · subst hs
    exact splitDepthFrom_cons_neutral _ _ _ hne1 hne2 hne3

theorem quantApply_len (a : Regex) (q : Bool) (rest1 : List Char) (a1 : Regex)
    (rest2 : List Char) (h : quantApply a q rest1 = some (a1, rest2)) :
    rest2.length ≤ rest1.length := by
  cases rest1 with
  | nil =>
    simp only [quantApply, Option.some_inj, Prod.mk.injEq] at h
    simp [← h.2]
  | cons c rest' =>
    rw [quantApply.eq_2] at h
    by_cases hc1 : c = '*'
    · rw [if_pos hc1] at h
      cases q with
      | false => exact Option.noConfusion h
      | true =>
        simp only [if_true, Option.some_inj, Prod.mk.injEq] at h
        simp [← h.2]
    rw [if_neg hc1] at h
    by_cases hc2 : c = '+'
    · rw [if_pos hc2] at h
      cases q with
      | false => exact Option.noConfusion h
      | true =>
        simp only [if_true, Option.some_inj, Prod.mk.injEq] at h
        simp [← h.2]
    rw [if_neg hc2] at h
    by_cases hc3 : c = '?'
    · rw [if_pos hc3] at h
      cases q with
      | false => exact Option.noConfusion h
      | true =>
        simp only [if_true, Option.some_inj, Prod.mk.injEq] at h
        simp [← h.2]
    rw [if_neg hc3] at h
    simp only [Option.some_inj, Prod.mk.injEq] at h
    simp [← h.2]

theorem quantApply_depth (a : Regex) (q : Bool) (rest1 : List Char) (a1 : Regex)
    (rest2 : List Char) (h : quantApply a q rest1 = some (a1, rest2)) :
    ∀ d : Nat, splitDepthFrom rest1 d = splitDepthFrom rest2 d := by
  intro d
  cases rest1 with
  | nil =>
    simp only [quantApply, Option.some_inj, Prod.mk.injEq] at h
    rw [← h.2]
  | cons c rest' =>
    rw [quantApply.eq_2] at h
    by_cases hc1 : c = '*'
    · rw [if_pos hc1] at h
      cases q with
      | false => exact Option.noConfusion h
      | true =>
        simp only [if_true, Option.some_inj, Prod.mk.injEq] at h
        rw [← h.2, hc1]
        exact splitDepthFrom_cons_neutral _ _ _ (by decide) (by decide) (by decide)
    rw [if_neg hc1] at h
    by_cases hc2 : c = '+'
    · rw [if_pos hc2] at h
      cases q with
      | false => exact Option.noConfusion h
      | true =>
        simp only [if_true, Option.some_inj, Prod.mk.injEq] at h
        rw [← h.2, hc2]
        exact splitDepthFrom_cons_neutral _ _ _ (by decide) (by decide) (by decide)
    rw [if_neg hc2] at h
    by_cases hc3 : c = '?'
    · rw [if_pos hc3] at h
      cases q with
      | false => exact Option.noConfusion h
      | true =>
        simp only [if_true, Option.some_inj, Prod.mk.injEq] at h
        rw [← h.2, hc3]
        exact splitDepthFrom_cons_neutral _ _ _ (by decide) (by decide) (by decide)
    rw [if_neg hc3] at h
    simp only [Option.some_inj, Prod.mk.injEq] at h
    rw [← h.2]

/-- Evaluation of the atom parser on an unescaped literal character. -/
theorem parseAtomF_char_eval (pa : List Char → Option Regex) (c : Char) (rest : List Char)
    (h1 : c ≠ '\\') (h2 : c ≠ '(') (h3 : c ≠ ')') (h4 : c ≠ '|') (h5 : c ≠ '*') (h6 : c ≠ '+')
    (h7 : c ≠ '?') (h8 : c ≠ '[') (h9 : c ≠ '\x7b') (h10 : c ≠ '^') (h11 : c ≠ '$')
    (h12 : c ≠ '.') : parseAtomF pa (c :: rest) = some (.char c, true, rest) := by
  rw [parseAtomF.eq_2, if_neg h2, if_neg h3, if_neg h4, if_neg h5, if_neg h6, if_neg h7,
    if_neg h8, if_neg h9, if_neg h10, if_neg h11, if_neg h1, if_neg h12]

/-- The atom parser only consults the alternation parser on strictly
shorter strings, so agreeing parsers give the same atoms. -/
theorem parseAtomF_cong (pa pa' : List Char → Option Regex) (s : List Char) (a : Regex)
    (q : Bool) (rest1 : List Char)
    (hcong : ∀ t r', t.length < s.length → pa t = some r' → pa' t = some r')
    (h : parseAtomF pa s = some (a, q, rest1)) : parseAtomF pa' s = some (a, q, rest1) := by
  rcases parseAtomF_inv pa s a q rest1 h with
    ⟨content, r, hs, hsg, hpa, ha, hq⟩ | ⟨hs, ha, hq⟩ | ⟨hs, ha, hq⟩ | ⟨e, hs, hesc, hq⟩ |
    ⟨hs, ha, hq⟩ | ⟨c, hs, ha, hq, hne⟩
  · subst hs ha hq
    have hlen : content.length < ('(' :: (content ++ ')' :: rest1)).length := by
      simp [List.length_append]
      omega
    have hpa' : pa' content = some a := hcong content a hlen hpa
    show groupPart pa' (content ++ ')' :: rest1) = some (a, true, rest1)
    unfold groupPart
    rw [hsg, Option.some_bind, hpa', Option.map_some']
  · subst hs ha hq
    rfl
  · subst hs ha hq
    rfl
  · subst hs hq
    show escPart (e :: rest1) = some (a, true, rest1)
    simp only [escPart]
    rw [hesc, Option.map_some']
  · subst hs ha hq
    rfl
  · subst hs ha hq
    obtain ⟨hb, hp1, hp2, hp3, hp4, hp5, hp6, hp7, hp8, hp9, hp10, hp11⟩ := hne
    exact parseAtomF_char_eval pa' c rest1 hb hp1 hp2 hp3 hp4 hp5 hp6 hp7 hp8 hp9 hp10 hp11

/-! ### Lemmas about the piece parser and the fuelled pattern parser -/

theorem parseSeqF_cong : ∀ (fuel : Nat) (pa pa' : List Char → Option Regex) (s : List Char)
    (r : Regex), (∀ t r', t.length < s.length → pa t = some r' → pa' t = some r') →
    parseSeqF pa fuel s = some r → parseSeqF pa' fuel s = some r := by
  intro fuel
  induction fuel with
  | zero => intro pa pa' s r _ h; exact absurd h (by simp [parseSeqF])
  | succ fuel ih =>
    intro pa pa' s r hcong h
    cases s with
    | nil => simpa [parseSeqF] using h
    | cons c rest =>
      simp only [parseSeqF, Option.bind_eq_some, Option.map_eq_some'] at h ⊢
      obtain ⟨⟨a, q, rest1⟩, h1, ⟨a1, rest2⟩, h2, rr, h3, hconc⟩ := h
      refine ⟨⟨a, q, rest1⟩, parseAtomF_cong pa pa' (c :: rest) a q rest1 hcong h1,
        ⟨a1, rest2⟩, h2, rr, ?_, hconc⟩
      have hlen : rest2.length < (c :: rest).length :=
        lt_of_le_of_lt (quantApply_len a q rest1 a1 rest2 h2)
          (parseAtomF_len pa (c :: rest) a q rest1 h1)
      exact ih pa pa' rest2 rr (fun t r' ht hp => hcong t r' (lt_trans ht hlen) hp) h3

theorem parseSeqF_depth : ∀ (fuel : Nat) (pa : List Char → Option Regex) (s : List Char)
    (r : Regex), parseSeqF pa fuel s = some r → ∀ d : Nat, splitDepthFrom s d = some d := by
  intro fuel
  induction fuel with
  | zero => intro pa s r h; exact absurd h (by simp [parseSeqF])
  | succ fuel ih =>
    intro pa s r h d
    cases s with
    | nil => simp [splitDepthFrom]
    | cons c rest =>
      simp only [parseSeqF, Option.bind_eq_some, Option.map_eq_some'] at h
      obtain ⟨⟨a, q, rest1⟩, h1, ⟨a1, rest2⟩, h2, rr, h3, _⟩ := h
      rw [parseAtomF_depth pa (c :: rest) a q rest1 h1 d,
        quantApply_depth a q rest1 a1 rest2 h2 d]
      exact ih pa rest2 rr h3 d

theorem parseAltF_mono_succ : ∀ (fuel : Nat) (s : List Char) (r : Regex),
    parseAltF fuel s = some r → parseAltF (fuel + 1) s = some r := by
  intro fuel
  induction fuel with
  | zero => intro s r h; exact absurd h (by simp [parseAltF])
  | succ fuel ih =>
    intro s r h
    simp only [parseAltF, Option.bind_eq_some] at h ⊢
    obtain ⟨rs, hrs, halts⟩ := h
    refine ⟨rs, ?_, halts⟩
    refine parsePieces_cong (splitTop s) _ _ rs ?_ hrs
    intro p _ r2 hr2
    exact parseSeqF_cong (p.length + 1) _ _ p r2 (fun t r3 _ h3 => ih t r3 h3) hr2

theorem parseAltF_mono : ∀ (k fuel : Nat) (s : List Char) (r : Regex),
    parseAltF fuel s = some r → parseAltF (fuel + k) s = some r := by
  intro k
  induction k with
  | zero => intro fuel s r h; exact h
  | succ k ih =>
    intro fuel s r h
    have := ih fuel s r h
    have h2 := parseAltF_mono_succ (fuel + k) s r this
    have harith : fuel + (k + 1) = fuel + k + 1 := by omega
    rw [harith]
    exact h2

theorem parseAltF_mono_le (f1 f2 : Nat) (s : List Char) (r : Regex) (hle : f1 ≤ f2)
    (h : parseAltF f1 s = some r) : parseAltF f2 s = some r := by
  obtain ⟨k, rfl⟩ := Nat.exists_eq_add_of_le hle
  exact parseAltF_mono k f1 s r h

/-- Success at any fuel implies success at the canonical fuel used by
`parseRegex`, with the same syntax tree. -/
theorem parseAltF_adequate : ∀ (fuel : Nat) (s : List Char) (r : Regex),
    parseAltF fuel s = some r → parseRegex s = some r := by
  intro fuel
  induction fuel with
  | zero => intro s r h; exact absurd h (by simp [parseAltF])
  | succ fuel ih =>
    intro s r h
    simp only [parseAltF, Option.bind_eq_some] at h
    obtain ⟨rs, hrs, halts⟩ := h
    unfold parseRegex
    simp only [parseAltF, Option.bind_eq_some]
    refine ⟨rs, ?_, halts⟩
    refine parsePieces_cong (splitTop s) _ _ rs ?_ hrs
    intro p hp r2 hr2
    have hple : p.length ≤ s.length := length_mem_splitTop s p hp
    refine parseSeqF_cong (p.length + 1) _ _ p r2 ?_ hr2
    intro t r3 htlen h3
    have h4 : parseAltF (t.length + 1) t = some r3 := ih t r3 h3
    exact parseAltF_mono_le (t.length + 1) s.length t r3 (by omega) h4

/-- A pattern that parses is balanced: scanning it from depth 0 ends at
depth 0. -/
theorem parseRegex_depth (f : List Char) (r : Regex) (h : parseRegex f = some r) :
    splitDepthFrom f 0 = some 0 := by
  unfold parseRegex at h
  simp only [parseAltF, Option.bind_eq_some] at h
  obtain ⟨rs, hrs, _⟩ := h
  have hmem := parsePieces_mem _ _ _ hrs
  have hd : ∀ p ∈ splitTop f, ∀ d : Nat, splitDepthFrom p d = some d := by
    intro p hp d
    obtain ⟨rp, hrp⟩ := hmem p hp
    exact parseSeqF_depth _ _ _ _ hrp d
  have := splitDepthFrom_joinBar (splitTop f) hd 0
  rwa [joinBar_splitTop] at this

/-! ### Semantic lemmas about alternation and matching -/

theorem isMatch_iff (r : Regex) (s : List Char) :
    isMatch r s = true ↔ ∃ i, i ≤ s.length ∧ ∃ j, j ∈ endsFrom s r i := by
  unfold isMatch
  rw [List.any_eq_true]
  constructor
  · rintro ⟨i, hi, hne⟩
    rw [List.mem_range, Nat.lt_succ_iff] at hi
    refine ⟨i, hi, ?_⟩
    cases hj : endsFrom s r i with
    | nil => rw [hj] at hne; simp at hne
    | cons j js => exact ⟨j, by simp [hj]⟩
  · rintro ⟨i, hi, j, hj⟩
    refine ⟨i, by rw [List.mem_range, Nat.lt_succ_iff]; exact hi, ?_⟩
    cases hl : endsFrom s r i with
    | nil => rw [hl] at hj; simp at hj
    | cons x xs => simp

theorem mem_endsFrom_altOf : ∀ (rs : List Regex) (r : Regex) (full : List Char) (i j : Nat),
    (j ∈ endsFrom full (altOf r rs) i ↔ ∃ q ∈ r :: rs, j ∈ endsFrom full q i) := by
  intro rs
  induction rs with
  | nil => intro r full i j; simp [altOf]
  | cons r2 rs' ih =>
    intro r full i j
    show j ∈ endsFrom full (.alt r (altOf r2 rs')) i ↔ _
    rw [show endsFrom full (.alt r (altOf r2 rs')) i =
      endsFrom full r i ++ endsFrom full (altOf r2 rs') i from rfl]
    rw [List.mem_append, ih r2 full i j]
    constructor
    · rintro (h | ⟨q, hq, hj⟩)
      · exact ⟨r, by simp, h⟩
      · exact ⟨q, by simp [List.mem_cons] at hq ⊢; tauto, hj⟩
    · rintro ⟨q, hq, hj⟩
      rcases List.mem_cons.mp hq with rfl | hq2
      · exact Or.inl hj
      · exact Or.inr ⟨q, hq2, hj⟩

theorem isMatch_altOf (r : Regex) (rs : List Regex) (s : List Char) :
    isMatch (altOf r rs) s = (r :: rs).any (fun q => isMatch q s) := by
  rw [Bool.eq_iff_iff, isMatch_iff, List.any_eq_true]
  constructor
  · rintro ⟨i, hi, j, hj⟩
    rw [mem_endsFrom_altOf] at hj
    obtain ⟨q, hq, hjq⟩ := hj
    exact ⟨q, hq, (isMatch_iff q s).mpr ⟨i, hi, j, hjq⟩⟩
  · rintro ⟨q, hq, hmq⟩
    obtain ⟨i, hi, j, hj⟩ := (isMatch_iff q s).mp hmq
    exact ⟨i, hi, j, (mem_endsFrom_altOf rs r s i j).mpr ⟨q, hq, hj⟩⟩

theorem isMatch_eps (s : List Char) : isMatch .eps s = true := by
  rw [isMatch_iff]
  exact ⟨0, Nat.zero_le _, 0, by simp [endsFrom]⟩

/-- The matcher compiled from an empty pattern set accepts exactly the
empty haystack. -/
theorem isMatch_emptyPat (s : List Char) : isMatch emptyPat s = decide (s = []) := by
  rw [Bool.eq_iff_iff, isMatch_iff, decide_eq_true_iff]
  constructor
  · rintro ⟨i, hi, j, hj⟩
    unfold emptyPat at hj
    rw [show endsFrom s (Regex.concat .bol (.concat .eol .eps)) i =
      (endsFrom s .bol i).flatMap (fun k => endsFrom s (.concat .eol .eps) k) from rfl] at hj
    rw [List.mem_flatMap] at hj
    obtain ⟨k, hk, hj2⟩ := hj
    by_cases hi0 : i = 0
    · subst hi0
      simp only [endsFrom, if_true, List.mem_singleton] at hk
      subst hk
      rw [show endsFrom s (Regex.concat .eol .eps) 0 =
        (endsFrom s .eol 0).flatMap (fun m => endsFrom s .eps m) from rfl] at hj2
      rw [List.mem_flatMap] at hj2
      obtain ⟨m, hm, _⟩ := hj2
      simp only [endsFrom] at hm
      by_cases hlen : 0 = s.length
      · exact (List.length_eq_zero.mp hlen.symm)
      · rw [if_neg hlen] at hm; simp at hm
    · simp only [endsFrom, if_neg hi0] at hk; simp at hk
  · intro hs
    subst hs
    exact ⟨0, Nat.zero_le _, 0, by simp [emptyPat, endsFrom]⟩

theorem altsOf_eq_some (rs : List Regex) (r : Regex) (h : altsOf rs = some r) :
    ∃ q qs, rs = q :: qs ∧ r = altOf q qs := by
  cases rs with
  | nil => exact absurd h (by simp [altsOf])
  | cons q qs =>
    simp only [altsOf, Option.some_inj] at h
    exact ⟨q, qs, rfl, h.symm⟩

/-- Parsing the bar-join of two compiling patterns succeeds, and the
joined matcher accepts exactly the union of the two languages. -/
theorem parseRegex_join (f g : List Char) (r1 r2 : Regex)
    (h1 : parseRegex f = some r1) (h2 : parseRegex g = some r2) :
    ∃ R, parseRegex (f ++ '|' :: g) = some R ∧
      ∀ s, isMatch R s = (isMatch r1 s || isMatch r2 s) := by
  have hdf := parseRegex_depth f r1 h1
  unfold parseRegex at h1 h2
  simp only [parseAltF, Option.bind_eq_some] at h1 h2
  obtain ⟨rs1, hrs1, halts1⟩ := h1
  obtain ⟨rs2, hrs2, halts2⟩ := h2
  obtain ⟨q1, qs1, hrs1e, hr1e⟩ := altsOf_eq_some rs1 r1 halts1
  obtain ⟨q2, qs2, hrs2e, hr2e⟩ := altsOf_eq_some rs2 r2 halts2
  have hlf : f.length ≤ (f ++ '|' :: g).length := by simp
  have hlg : g.length ≤ (f ++ '|' :: g).length := by simp; omega
  have hlift1 : parsePieces
      (fun p => parseSeqF (parseAltF (f ++ '|' :: g).length) (p.length + 1) p)
      (splitTop f) = some rs1 := by
    refine parsePieces_cong (splitTop f) _ _ rs1 ?_ hrs1
    intro p _ rp hp
    refine parseSeqF_cong (p.length + 1) _ _ p rp ?_ hp
    intro t r' _ h'
    exact parseAltF_mono_le f.length (f ++ '|' :: g).length t r' hlf h'
  have hlift2 : parsePieces
      (fun p => parseSeqF (parseAltF (f ++ '|' :: g).length) (p.length + 1) p)
      (splitTop g) = some rs2 := by
    refine parsePieces_cong (splitTop g) _ _ rs2 ?_ hrs2
    intro p _ rp hp
    refine parseSeqF_cong (p.length + 1) _ _ p rp ?_ hp
    intro t r' _ h'
    exact parseAltF_mono_le g.length (f ++ '|' :: g).length t r' hlg h'
  have hsplit : splitTop (f ++ '|' :: g) = splitTop f ++ splitTop g :=
    splitTop_bar_append f g hdf
  refine ⟨altOf q1 (qs1 ++ rs2), ?_, ?_⟩
  · unfold parseRegex
    simp only [parseAltF, Option.bind_eq_some]
    refine ⟨rs1 ++ rs2, ?_, ?_⟩
    · rw [hsplit]
      exact parsePieces_append_of _ (splitTop f) (splitTop g) rs1 rs2 hlift1 hlift2
    · rw [hrs1e]
      simp [altsOf]
  · intro s
    rw [isMatch_altOf, hr1e, hr2e, isMatch_altOf, isMatch_altOf, hrs2e]
    simp [List.any_append, Bool.or_assoc]

/-! ### The joined matcher of an individually compiling fragment list -/

theorem fragMatch_eq (p : List Char) (rp : Regex) (s : List Char)
    (h : parseRegex p = some rp) : fragMatch p s = isMatch rp s := by
  unfold fragMatch
  rw [h]

theorem joinBar_cons_cons (p q : List Char) (qs : List (List Char)) :
    joinBar (p :: q :: qs) = p ++ '|' :: joinBar (q :: qs) := rfl

/-- Parsing the bar-join of a nonempty list of individually compiling
fragments succeeds, and the joined matcher matches exactly when some
fragment matches. -/
theorem parseRegex_joinBar : ∀ (ps : List (List Char)), ps ≠ [] →
    (∀ p ∈ ps, ∃ rp, parseRegex p = some rp) →
    ∃ R, parseRegex (joinBar ps) = some R ∧
      ∀ s, isMatch R s = ps.any (fun p => fragMatch p s) := by
  intro ps
  induction ps with
  | nil => intro h; exact absurd rfl h
  | cons p ps ih =>
    intro _ hall
    obtain ⟨rp, hrp⟩ := hall p (by simp)
    cases ps with
    | nil =>
      refine ⟨rp, hrp, ?_⟩
      intro s
      simp [joinBar, List.any_cons, fragMatch_eq p rp s hrp]
    | cons q qs =>
      obtain ⟨R2, hR2, hsem2⟩ :=
        ih (by simp) (fun p2 hp2 => hall p2 (by simp [List.mem_cons] at hp2 ⊢; tauto))
      obtain ⟨R, hR, hsem⟩ := parseRegex_join p (joinBar (q :: qs)) rp R2 hrp hR2
      rw [joinBar_cons_cons]
      refine ⟨R, hR, ?_⟩
      intro s
      simp only [hsem s, hsem2 s, List.any_cons, fragMatch_eq p rp s hrp]

/-- Compiling the anchor pair used for the empty set gives the
empty-haystack matcher. -/
theorem parseRegex_anchors : parseRegex ['^', '$'] = some emptyPat := rfl

theorem to_regex_of_join_nil (ps : List (List Char)) (hj : joinBar ps = []) :
    to_regex ps = some emptyPat := by
  unfold to_regex
  rw [if_pos hj]
  exact parseRegex_anchors

theorem to_regex_of_join_ne_nil (ps : List (List Char)) (hj : joinBar ps ≠ []) :
    to_regex ps = parseRegex (joinBar ps) := by
  unfold to_regex
  rw [if_neg hj]

/-- A fragment set whose members all compile individually always yields
a compiled joined matcher. -/
theorem to_regex_isSome (ps : List (List Char))
    (hall : ∀ p ∈ ps, (parseRegex p).isSome) : (to_regex ps).isSome := by
  by_cases hj : joinBar ps = []
  · rw [to_regex_of_join_nil ps hj]
    rfl
  · rw [to_regex_of_join_ne_nil ps hj]
    have hne : ps ≠ [] := by
      intro hcon
      subst hcon
      exact hj rfl
    obtain ⟨R, hR, _⟩ := parseRegex_joinBar ps hne
      (fun p hp => Option.isSome_iff_exists.mp (hall p hp))
    rw [hR]
    rfl

/-! ### Lemmas about the fragment-set container model -/

theorem mem_foldl_hsInsert : ∀ (fs acc : List (List Char)) (x : List Char),
    (x ∈ fs.foldl hsInsert acc ↔ x ∈ acc ∨ x ∈ fs) := by
  intro fs
  induction fs with
  | nil => intro acc x; simp
  | cons f fs ih =>
    intro acc x
    rw [List.foldl_cons, ih (hsInsert acc f) x]
    unfold hsInsert
    by_cases hf : f ∈ acc
    · rw [if_pos hf]
      constructor
      · rintro (h | h)
        · exact Or.inl h
        · exact Or.inr (by simp [h])
      · rintro (h | h)
        · exact Or.inl h
        · rcases List.mem_cons.mp h with rfl | h2
          · exact Or.inl hf
          · exact Or.inr h2
    · rw [if_neg hf]
      constructor
      · rintro (h | h)
        · rcases List.mem_append.mp h with h2 | h2
          · exact Or.inl h2
          · simp only [List.mem_singleton] at h2
            exact Or.inr (by simp [h2])
        · exact Or.inr (by simp [h])
      · rintro (h | h)
        · exact Or.inl (List.mem_append.mpr (Or.inl h))
        · rcases List.mem_cons.mp h with rfl | h2
          · exact Or.inl (List.mem_append.mpr (Or.inr (by simp)))
          · exact Or.inr h2

theorem nodup_hsInsert (acc : List (List Char)) (f : List Char) (h : acc.Nodup) :
    (hsInsert acc f).Nodup := by
  unfold hsInsert
  by_cases hf : f ∈ acc
  · rw [if_pos hf]; exact h
  · rw [if_neg hf]
    rw [List.nodup_append]
    exact ⟨h, List.nodup_singleton f, by simpa using fun hcon => hf hcon⟩

theorem nodup_foldl_hsInsert : ∀ (fs acc : List (List Char)), acc.Nodup →
    (fs.foldl hsInsert acc).Nodup := by
  intro fs
  induction fs with
  | nil => intro acc h; exact h
  | cons f fs ih =>
    intro acc h
    rw [List.foldl_cons]
    exact ih (hsInsert acc f) (nodup_hsInsert acc f h)

theorem hsInsert_of_not_mem (acc : List (List Char)) (f : List Char) (h : f ∉ acc) :
    hsInsert acc f = acc ++ [f] := by
  unfold hsInsert
  rw [if_neg h]

theorem mem_foldl_filter_ne : ∀ (fs : List (List Char)) (acc : List (List Char)) (x : List Char),
    x ∈ fs.foldl (fun a f => a.filter (fun p => p ≠ lowerStr f)) acc → x ∈ acc := by
  intro fs
  induction fs with
  | nil => intro acc x h; exact h
  | cons f fs ih =>
    intro acc x h
    rw [List.foldl_cons] at h
    have := ih _ x h
    exact (List.mem_filter.mp this).1

/-! ### Structural facts about the detector operations -/

theorem new_eq_some (t : List Char) (d : BotDetector) (h : BotDetector.new t = some d) :
    d.user_agent_patterns = parse_lines (lowerStr t) ∧ BotDetector.inv d := by
  unfold BotDetector.new at h
  rw [Option.map_eq_some'] at h
  obtain ⟨r, hr, rfl⟩ := h
  exact ⟨rfl, hr⟩

theorem append_eq_some (d : BotDetector) (fs : List (List Char)) (d' : BotDetector)
    (h : BotDetector.append d fs = some d') :
    d'.user_agent_patterns =
      fs.foldl (fun acc f => hsInsert acc (lowerStr f)) d.user_agent_patterns ∧
    BotDetector.inv d' := by
  unfold BotDetector.append at h
  rw [Option.map_eq_some'] at h
  obtain ⟨r, hr, rfl⟩ := h
  exact ⟨rfl, hr⟩

theorem remove_eq_some (d : BotDetector) (fs : List (List Char)) (d' : BotDetector)
    (h : BotDetector.remove d fs = some d') :
    d'.user_agent_patterns =
      fs.foldl (fun acc f => acc.filter (fun p => p ≠ lowerStr f)) d.user_agent_patterns ∧
    BotDetector.inv d' := by
  unfold BotDetector.remove at h
  rw [Option.map_eq_some'] at h
  obtain ⟨r, hr, rfl⟩ := h
  exact ⟨rfl, hr⟩

theorem parse_lines_mem (t : List Char) (x : List Char) :
    x ∈ parse_lines t ↔ x ∈ rustLines t ∧ ¬(x.all isWSChar = true) := by
  unfold parse_lines
  rw [mem_foldl_hsInsert]
  simp [List.mem_filter]

theorem parse_lines_nodup (t : List Char) : (parse_lines t).Nodup :=
  nodup_foldl_hsInsert _ [] List.nodup_nil

theorem parse_lines_ne_nil (t : List Char) (x : List Char) (h : x ∈ parse_lines t) :
    x ≠ [] := by
  intro hcon
  subst hcon
  exact ((parse_lines_mem t []).mp h).2 rfl

theorem joinBar_ne_nil_head (p : List Char) (ps : List (List Char)) (hp : p ≠ []) :
    joinBar (p :: ps) ≠ [] := by
  cases ps with
  | nil => exact hp
  | cons q qs =>
    rw [joinBar_cons_cons]
    simp

theorem joinBar_append_single : ∀ (ps : List (List Char)) (x : List Char), ps ≠ [] →
    joinBar (ps ++ [x]) = joinBar ps ++ '|' :: x := by
  intro ps
  induction ps with
  | nil => intro x h; exact absurd rfl h
  | cons p ps ih =>
    intro x _
    cases ps with
    | nil => rfl
    | cons q qs =>
      have ih2 := ih x (by simp)
      rw [List.cons_append] at ih2
      rw [List.cons_append, List.cons_append, joinBar_cons_cons, ih2, joinBar_cons_cons]
      simp

/-! ### ASCII folding facts -/

theorem toNat_ofNat_valid (n : Nat) (h : n < 55296) : (Char.ofNat n).toNat = n := by
  rw [Char.ofNat, dif_pos (Or.inl h)]
  rfl

theorem asciiLower_idem (c : Char) : asciiLower (asciiLower c) = asciiLower c := by
  unfold asciiLower
  by_cases h : 'A' ≤ c ∧ c ≤ 'Z'
  · rw [if_pos h]
    have h1 : ('A' : Char).toNat ≤ c.toNat := h.1
    have h2 : c.toNat ≤ ('Z' : Char).toNat := h.2
    have hA : ('A' : Char).toNat = 65 := rfl
    have hZ : ('Z' : Char).toNat = 90 := rfl
    have hlt : c.toNat + 32 < 55296 := by omega
    have ht : (Char.ofNat (c.toNat + 32)).toNat = c.toNat + 32 :=
      toNat_ofNat_valid _ hlt
    rw [if_neg]
    intro hcon
    have h3 : (Char.ofNat (c.toNat + 32)).toNat ≤ ('Z' : Char).toNat := hcon.2
    rw [ht, hZ] at h3
    omega
  · rw [if_neg h, if_neg h]

theorem lowerStr_idem (s : List Char) : lowerStr (lowerStr s) = lowerStr s := by
  unfold lowerStr
  rw [List.map_map]
  exact List.map_congr_left (fun c _ => asciiLower_idem c)

theorem lowerStr_eq_nil_iff (s : List Char) : lowerStr s = [] ↔ s = [] := by
  unfold lowerStr
  simp

/-! ### Claim C6: the compiled matcher always reflects the pattern set -/

/-- C6: after every constructor or mutating call (`new`, `default`,
`append`, `remove`) that returns, the stored compiled matcher equals the
matcher built fresh from the stored pattern set: no stale compiled state
is observable. -/
theorem claim_C6_compiled_consistent :
    (∀ (t : List Char) (d : BotDetector), BotDetector.new t = some d → BotDetector.inv d) ∧
    (∀ d : BotDetector, BotDetector.default = some d → BotDetector.inv d) ∧
    (∀ (d : BotDetector) (fs : List (List Char)) (d' : BotDetector),
      BotDetector.append d fs = some d' → BotDetector.inv d') ∧
    (∀ (d : BotDetector) (fs : List (List Char)) (d' : BotDetector),
      BotDetector.remove d fs = some d' → BotDetector.inv d') := by
  refine ⟨?_, ?_, ?_, ?_⟩
  · intro t d h
    exact (new_eq_some t d h).2
  · intro d h
    exact (new_eq_some [] d h).2
  · intro d fs d' h
    exact (append_eq_some d fs d' h).2
  · intro d fs d' h
    exact (remove_eq_some d fs d' h).2

/-- Witness for C6 at concrete calls. -/
theorem claim_C6_witness :
    BotDetector.inv ((BotDetector.new "bot".data).get (by decide)) ∧
    BotDetector.inv ((BotDetector.default).get (by decide)) ∧
    BotDetector.inv (((BotDetector.new "bot".data).get (by decide)).append [['x']]
      |>.get (by decide)) ∧
    BotDetector.inv (((BotDetector.new "bot".data).get (by decide)).remove [['x']]
      |>.get (by decide)) := by
  refine ⟨?_, ?_, ?_, ?_⟩
  · exact claim_C6_compiled_consistent.1 "bot".data _ (Option.some_get _).symm
  · exact claim_C6_compiled_consistent.2.1 _ (Option.some_get _).symm
  · exact claim_C6_compiled_consistent.2.2.1 _ [['x']] _ (Option.some_get _).symm
  · exact claim_C6_compiled_consistent.2.2.2 _ [['x']] _ (Option.some_get _).symm

/-! ### Claim C5: the empty pattern set matches only the empty string -/

/-- C5: whenever the stored fragment set is empty, `check_bot` accepts
exactly the empty input. -/
theorem claim_C5_empty_set (d : BotDetector) (hinv : BotDetector.inv d)
    (hemp : d.user_agent_patterns = []) :
    d.check_bot [] = true ∧ ∀ x : List Char, x ≠ [] → d.check_bot x = false := by
  have hreg : d.user_agents_regex = emptyPat := by
    have := hinv
    unfold BotDetector.inv at this
    rw [hemp, to_regex_of_join_nil [] rfl] at this
    exact (Option.some_inj.mp this).symm
  constructor
  · unfold BotDetector.check_bot
    rw [hreg, isMatch_emptyPat]
    simp [lowerStr]
  · intro x hx
    unfold BotDetector.check_bot
    rw [hreg, isMatch_emptyPat]
    simp only [decide_eq_false_iff_not]
    intro hcon
    exact hx ((lowerStr_eq_nil_iff x).mp hcon)

/-- Witness for C5: `new("")` yields the empty set, accepts `""` and
rejects a nonempty input. -/
theorem claim_C5_witness :
    ((BotDetector.new "".data).get (by decide)).check_bot [] = true ∧
    ((BotDetector.new "".data).get (by decide)).check_bot ['z'] = false := by
  have h := claim_C5_empty_set ((BotDetector.new "".data).get (by decide))
    ((new_eq_some "".data _ (Option.some_get _).symm).2) (by decide)
  exact ⟨h.1, h.2 ['z'] (by decide)⟩

/-! ### Claim C10: classification is invariant under ASCII case of the input -/

/-- C10: `check_bot` equals `check_bot` of the folded input, and any two
inputs with the same ASCII-lowercase folding classify identically (the
result is a pure function of the state and the folded input). -/
theorem claim_C10_case_invariant :
    (∀ (d : BotDetector) (x : List Char), d.check_bot (lowerStr x) = d.check_bot x) ∧
    (∀ (d : BotDetector) (x y : List Char), lowerStr x = lowerStr y →
      d.check_bot x = d.check_bot y) := by
  constructor
  · intro d x
    unfold BotDetector.check_bot
    rw [lowerStr_idem]
  · intro d x y hxy
    unfold BotDetector.check_bot
    rw [hxy]

/-- Witness for C10 at a concrete state and concrete case variants. -/
theorem claim_C10_witness :
    ((BotDetector.new "bot".data).get (by decide)).check_bot (lowerStr "SOME-BOT".data) =
      ((BotDetector.new "bot".data).get (by decide)).check_bot "SOME-BOT".data ∧
    ((BotDetector.new "bot".data).get (by decide)).check_bot "SOME-BOT".data =
      ((BotDetector.new "bot".data).get (by decide)).check_bot "some-bot".data :=
  ⟨claim_C10_case_invariant.1 _ "SOME-BOT".data,
    claim_C10_case_invariant.2 _ "SOME-BOT".data "some-bot".data (by decide)⟩

/-! ### Claim C7 (corrected): lines are stored verbatim, not trimmed -/

/-- Counterexample to C7 as stated: for the input `" a"`, the stored
fragment is the untrimmed line `" a"`, not the trimmed `"a"` that the
claim (stored fragments are the trimmed non-blank lines) prescribes via
`specLinesTrimmed`. -/
theorem claim_C7_counterexample :
    ((BotDetector.new " a".data).map (fun d => d.user_agent_patterns)) = some [[' ', 'a']] ∧
    specLinesTrimmed (lowerStr " a".data) = [['a']] ∧
    ((BotDetector.new " a".data).map (fun d => d.user_agent_patterns)) ≠
      some (specLinesTrimmed (lowerStr " a".data)) := by
  refine ⟨by decide, by decide, by decide⟩

/-- C7 amended: the stored fragments are exactly the distinct non-blank
lines of the ASCII-lowercased text, kept verbatim (with no whitespace
trimming), and the stored list is duplicate-free. -/
theorem claim_C7_lines_verbatim (t : List Char) (d : BotDetector)
    (h : BotDetector.new t = some d) :
    (∀ p, p ∈ d.user_agent_patterns ↔
      (p ∈ rustLines (lowerStr t) ∧ ¬(p.all isWSChar = true))) ∧
    d.user_agent_patterns.Nodup := by
  obtain ⟨hp, _⟩ := new_eq_some t d h
  rw [hp]
  exact ⟨fun p => parse_lines_mem (lowerStr t) p, parse_lines_nodup (lowerStr t)⟩

/-- Witness for the amended C7 at a concrete input with leading
whitespace, duplicates and a blank line. -/
theorem claim_C7_witness :
    (((BotDetector.new " a\n\n a".data).get (by decide)).user_agent_patterns.Nodup) ∧
    ([' ', 'a'] ∈ ((BotDetector.new " a\n\n a".data).get (by decide)).user_agent_patterns ↔
      ([' ', 'a'] ∈ rustLines (lowerStr " a\n\n a".data) ∧
        ¬(([' ', 'a'].all isWSChar) = true))) := by
  have h := claim_C7_lines_verbatim " a\n\n a".data _ (Option.some_get (by decide)).symm
  exact ⟨h.2, h.1 [' ', 'a']⟩

theorem isSome_option_map {α β : Type} (f : α → β) (o : Option α) :
    (o.map f).isSome = o.isSome := by
  cases o <;> rfl

/-! ### Claim C3 (corrected): construction aborts on a bad join, never
returns an error value, and can store individually invalid fragments -/

/-- Counterexample to C3 as stated: construction from `"(\n)"` succeeds
(no failure of any kind) while both stored fragments are individually
invalid regexes — the joined pattern `"(|)"` compiles even though `"("`
and `")"` do not. -/
theorem claim_C3_counterexample :
    (BotDetector.new "(\n)".data) ≠ none ∧
    ((BotDetector.new "(\n)".data).map (fun d => d.user_agent_patterns)) =
      some [['('], [')']] ∧
    parseRegex ['('] = none ∧ parseRegex [')'] = none := by
  refine ⟨by decide, by decide, by decide, by decide⟩

/-- C3 amended: construction aborts (modelled as `none`, the panicking
`unwrap`) precisely when the joined pattern fails to compile; when every
surviving line compiles on its own, construction always succeeds — but
the converse fails, as construction can also succeed on individually
invalid lines. -/
theorem claim_C3_new_failure (t : List Char) :
    ((BotDetector.new t).isSome ↔ (to_regex (parse_lines (lowerStr t))).isSome) ∧
    ((∀ p ∈ parse_lines (lowerStr t), (parseRegex p).isSome) →
      (BotDetector.new t).isSome) := by
  constructor
  · unfold BotDetector.new
    rw [isSome_option_map]
  · intro hall
    unfold BotDetector.new
    rw [isSome_option_map]
    exact to_regex_isSome (parse_lines (lowerStr t)) hall

/-- Witness for the amended C3 at a concrete text of valid lines. -/
theorem claim_C3_witness : (BotDetector.new "bot\nspider".data).isSome = true :=
  (claim_C3_new_failure "bot\nspider".data).2 (by decide)

/-! ### Claim C2 (corrected): append is decided by the joined pattern and
mutates on success; there is no error value and no rollback -/

/-- Counterexample to C2 as stated: appending `["(", ")"]` — a sequence
containing individually invalid fragments — to the set from `new("a")`
does not fail at all: it succeeds and mutates the pattern set; and
appending `["("]` alone, which fails under every fragment order, aborts
(the panicking `unwrap`, modelled `none`) rather than returning an error
value with an unchanged state. -/
theorem claim_C2_counterexample :
    ((BotDetector.new ['a']).bind (fun d => d.append [['('], [')']])) ≠ none ∧
    ((BotDetector.new ['a']).bind (fun d => d.append [['('], [')']])).map
      (fun d => d.user_agent_patterns) = some [['a'], ['('], [')']] ∧
    ((BotDetector.new ['a']).bind (fun d => d.append [['('], [')']])).map
      (fun d => d.user_agent_patterns) ≠ (BotDetector.new ['a']).map
      (fun d => d.user_agent_patterns) ∧
    parseRegex ['('] = none ∧
    ((BotDetector.new ['a']).bind (fun d => d.append [['(']])) = none := by
  refine ⟨by decide, by decide, by decide, by decide, by decide⟩

/-- C2 amended: `append` succeeds exactly when the joined pattern of the
updated (folded-union) set compiles; on the failure side, `append`
aborts (the panicking `unwrap`, modelled `none`) exactly when that join
does not compile — it never returns an error value with an unchanged
state.  On success, the stored set is exactly the folded union and the
compiled matcher is rebuilt consistently; and when every stored fragment
and every supplied fragment compiles individually, `append` always
succeeds. -/
theorem claim_C2_append_failure (d : BotDetector) (fs : List (List Char)) :
    ((BotDetector.append d fs).isSome ↔
      (to_regex (fs.foldl (fun acc f => hsInsert acc (lowerStr f))
        d.user_agent_patterns)).isSome) ∧
    (BotDetector.append d fs = none ↔
      to_regex (fs.foldl (fun acc f => hsInsert acc (lowerStr f))
        d.user_agent_patterns) = none) ∧
    (∀ d', BotDetector.append d fs = some d' →
      d'.user_agent_patterns =
        fs.foldl (fun acc f => hsInsert acc (lowerStr f)) d.user_agent_patterns ∧
      BotDetector.inv d') ∧
    ((∀ p ∈ d.user_agent_patterns, (parseRegex p).isSome) →
      (∀ f ∈ fs, (parseRegex (lowerStr f)).isSome) →
      (BotDetector.append d fs).isSome) := by
  refine ⟨?_, ?_, ?_, ?_⟩
  · unfold BotDetector.append
    rw [isSome_option_map]
  · unfold BotDetector.append
    rw [Option.map_eq_none']
  · intro d' h
    exact append_eq_some d fs d' h
  · intro hstored hfs
    unfold BotDetector.append
    rw [isSome_option_map]
    apply to_regex_isSome
    intro p hp
    rw [← List.foldl_map lowerStr hsInsert fs d.user_agent_patterns,
      mem_foldl_hsInsert] at hp
    rcases hp with hp | hp
    · exact hstored p hp
    · obtain ⟨f, hf, rfl⟩ := List.mem_map.mp hp
      exact hfs f hf

/-- Witness for the amended C2 at a concrete successful append of a
valid fragment and a concrete aborting append of an invalid one. -/
theorem claim_C2_witness :
    (((BotDetector.new "bot".data).get (by decide)).append [['x']]).isSome = true ∧
    BotDetector.user_agent_patterns
        ((((BotDetector.new "bot".data).get (by decide)).append [['x']]).get (by decide)) =
      [['b', 'o', 't'], ['x']] ∧
    ((BotDetector.new "bot".data).get (by decide)).append [['(']] = none := by
  refine ⟨?_, ?_, ?_⟩
  · exact (claim_C2_append_failure _ [['x']]).2.2.2 (by decide) (by decide)
  · have h := (claim_C2_append_failure ((BotDetector.new "bot".data).get (by decide))
      [['x']]).2.2.1 _ (Option.some_get (by decide)).symm
    rw [h.1]
    decide
  · exact (claim_C2_append_failure ((BotDetector.new "bot".data).get (by decide))
      [['(']]).2.1.mpr (by decide)

/-! ### Claim C4 (corrected): remove can abort from a reachable state -/

/-- Counterexample to C4 as stated: from the constructor-produced state
`new("(\n)")` (whose joined pattern `"(|)"` compiles), removing `")"`
leaves the single fragment `"("`, whose rebuild fails — the remove call
aborts instead of returning successfully. -/
theorem claim_C4_counterexample :
    (BotDetector.new "(\n)".data).isSome = true ∧
    ((BotDetector.new "(\n)".data).bind (fun d => d.remove [[')']])) = none := by
  refine ⟨by decide, by decide⟩

/-- C4 amended: `remove` always returns successfully from any state
whose stored fragments all compile individually (in particular from any
state built only from individually valid fragments); it is not total on
the states reachable through jointly-compiling fragment sets. -/
theorem claim_C4_remove_total (d : BotDetector) (fs : List (List Char))
    (hstored : ∀ p ∈ d.user_agent_patterns, (parseRegex p).isSome) :
    (BotDetector.remove d fs).isSome := by
  unfold BotDetector.remove
  rw [isSome_option_map]
  apply to_regex_isSome
  intro p hp
  exact hstored p (mem_foldl_filter_ne fs d.user_agent_patterns p hp)

/-- Witness for the amended C4 at a concrete state and removal. -/
theorem claim_C4_witness :
    (((BotDetector.new "bot\nspider".data).get (by decide)).remove [['b', 'o', 't']]).isSome =
      true :=
  claim_C4_remove_total _ [['b', 'o', 't']] (by decide)

/-! ### Claim C8 (corrected): the append/remove round trip restores the
state only for fragments that were not already present -/

/-- Counterexample to C8 as stated: for the fragment `"a"` already in
the set from `new("a")`, `append(["a"])` is a no-op and `remove(["a"])`
then deletes the original fragment: the set ends empty and a previously
accepted input is now rejected. -/
theorem claim_C8_counterexample :
    (BotDetector.new ['a']).map
      (fun d => (d.user_agent_patterns, d.check_bot ['a'])) = some ([['a']], true) ∧
    (((BotDetector.new ['a']).bind (fun d => d.append [['a']])).bind
      (fun d => d.remove [['a']])).map
      (fun d => (d.user_agent_patterns, d.check_bot ['a'])) = some ([], false) ∧
    (((BotDetector.new ['a']).bind (fun d => d.append [['a']])).bind
      (fun d => d.remove [['a']])).map
      (fun d => (d.user_agent_patterns, d.check_bot ['a'])) ≠
    (BotDetector.new ['a']).map
      (fun d => (d.user_agent_patterns, d.check_bot ['a'])) := by
  refine ⟨by decide, by decide, by decide⟩

/-- C8 amended: for a single fragment `f` that compiles validly and
whose folded form is not already stored, `append([f])` followed by
`remove([f])` restores the detector exactly (hence every later
`check_bot` answer), over any state whose fragments compile
individually. -/
theorem claim_C8_roundtrip (d : BotDetector) (f : List Char)
    (hinv : BotDetector.inv d)
    (hstored : ∀ p ∈ d.user_agent_patterns, (parseRegex p).isSome)
    (hf : (parseRegex (lowerStr f)).isSome)
    (hnotmem : lowerStr f ∉ d.user_agent_patterns) :
    (BotDetector.append d [f]).bind (fun d1 => BotDetector.remove d1 [f]) = some d := by
  have hps' : [f].foldl (fun acc g => hsInsert acc (lowerStr g)) d.user_agent_patterns =
      d.user_agent_patterns ++ [lowerStr f] := by
    rw [List.foldl_cons, List.foldl_nil, hsInsert_of_not_mem _ _ hnotmem]
  have hall' : ∀ p ∈ d.user_agent_patterns ++ [lowerStr f], (parseRegex p).isSome := by
    intro p hp
    rcases List.mem_append.mp hp with hp | hp
    · exact hstored p hp
    · simp only [List.mem_singleton] at hp
      subst hp
      exact hf
  obtain ⟨r', hr'⟩ := Option.isSome_iff_exists.mp
    (to_regex_isSome (d.user_agent_patterns ++ [lowerStr f]) hall')
  have happ : BotDetector.append d [f] =
      some ⟨r', d.user_agent_patterns ++ [lowerStr f]⟩ := by
    unfold BotDetector.append
    rw [hps', hr']
    rfl
  rw [happ, Option.some_bind]
  show BotDetector.remove ⟨r', d.user_agent_patterns ++ [lowerStr f]⟩ [f] = some d
  unfold BotDetector.remove
  have hfilter : [f].foldl (fun acc g => acc.filter (fun p => p ≠ lowerStr g))
      (d.user_agent_patterns ++ [lowerStr f]) = d.user_agent_patterns := by
    rw [List.foldl_cons, List.foldl_nil, List.filter_append]
    have h1 : d.user_agent_patterns.filter (fun p => p ≠ lowerStr f) =
        d.user_agent_patterns := by
      apply List.filter_eq_self.mpr
      intro p hp
      simp only [ne_eq, decide_eq_true_eq]
      intro hcon
      exact hnotmem (hcon ▸ hp)
    have h2 : [lowerStr f].filter (fun p => p ≠ lowerStr f) = [] := by
      simp
    rw [h1, h2, List.append_nil]
  rw [hfilter]
  unfold BotDetector.inv at hinv
  rw [hinv]
  rfl

/-- Witness for the amended C8 at a concrete state and fresh fragment. -/
theorem claim_C8_witness :
    (BotDetector.append ((BotDetector.new "bot".data).get (by decide)) [['x']]).bind
      (fun d1 => BotDetector.remove d1 [['x']]) =
    some ((BotDetector.new "bot".data).get (by decide)) :=
  claim_C8_roundtrip _ ['x'] (by decide) (by decide) (by decide) (by decide)

/-! ### Claim C9: an appended empty fragment makes everything a bot;
an empty fragment alone matches only the empty input -/

/-- C9: appending the empty-string fragment to a nonempty set (that did
not already contain it) makes `check_bot` accept every input, because
the joined alternation gains an empty top-level alternative; while a set
holding only the empty fragment joins to the empty pattern, compiles as
`"^$"` and accepts exactly the empty input. -/
theorem claim_C9_empty_fragment :
    (∀ (d d' : BotDetector) (x : List Char), BotDetector.inv d →
      d.user_agent_patterns ≠ [] → [] ∉ d.user_agent_patterns →
      BotDetector.append d [[]] = some d' → d'.check_bot x = true) ∧
    (∀ (d : BotDetector) (x : List Char), BotDetector.inv d →
      d.user_agent_patterns = [[]] → d.check_bot x = decide (x = [])) := by
  constructor
  · intro d d' x hinv hne hnotmem happ
    obtain ⟨p0, tl, hps⟩ : ∃ p0 tl, d.user_agent_patterns = p0 :: tl := by
      cases hc : d.user_agent_patterns with
      | nil => exact absurd hc hne
      | cons p0 tl => exact ⟨p0, tl, rfl⟩
    have hp0 : p0 ≠ [] := by
      intro hcon
      exact hnotmem (by rw [hps, hcon]; simp)
    have hjoin_ne : joinBar d.user_agent_patterns ≠ [] := by
      rw [hps]
      exact joinBar_ne_nil_head p0 tl hp0
    have hparse_d : parseRegex (joinBar d.user_agent_patterns) = some d.user_agents_regex := by
      have h2 := hinv
      unfold BotDetector.inv at h2
      rw [to_regex_of_join_ne_nil _ hjoin_ne] at h2
      exact h2
    obtain ⟨hps', hinv'⟩ := append_eq_some d [[]] d' happ
    have hfold : [([] : List Char)].foldl (fun acc f => hsInsert acc (lowerStr f))
        d.user_agent_patterns = d.user_agent_patterns ++ [[]] := by
      rw [List.foldl_cons, List.foldl_nil]
      exact hsInsert_of_not_mem _ _ hnotmem
    rw [hfold] at hps'
    have hjoin' : joinBar (d.user_agent_patterns ++ [[]]) =
        joinBar d.user_agent_patterns ++ '|' :: [] :=
      joinBar_append_single d.user_agent_patterns [] hne
    have hjoin'_ne : joinBar (d.user_agent_patterns ++ [[]]) ≠ [] := by
      rw [hps, List.cons_append]
      exact joinBar_ne_nil_head p0 (tl ++ [[]]) hp0
    have hparse_d' : parseRegex (joinBar (d.user_agent_patterns ++ [[]])) =
        some d'.user_agents_regex := by
      have h2 := hinv'
      unfold BotDetector.inv at h2
      rw [hps', to_regex_of_join_ne_nil _ hjoin'_ne] at h2
      exact h2
    obtain ⟨R, hR, hsem⟩ := parseRegex_join (joinBar d.user_agent_patterns) []
      d.user_agents_regex .eps hparse_d rfl
    have hreg : d'.user_agents_regex = R := by
      rw [hjoin', hR] at hparse_d'
      exact (Option.some_inj.mp hparse_d').symm
    unfold BotDetector.check_bot
    rw [hreg, hsem (lowerStr x), isMatch_eps, Bool.or_true]
  · intro d x hinv hps
    have hreg : d.user_agents_regex = emptyPat := by
      have h2 := hinv
      unfold BotDetector.inv at h2
      rw [hps, to_regex_of_join_nil [[]] rfl] at h2
      exact (Option.some_inj.mp h2).symm
    unfold BotDetector.check_bot
    rw [hreg, isMatch_emptyPat]
    exact decide_eq_decide.mpr (lowerStr_eq_nil_iff x)

/-- Witness for C9: appending `""` to the set from `new("a")` classifies
an unrelated input as a bot, and the set holding only `""` accepts the
empty input but not a nonempty one. -/
theorem claim_C9_witness :
    BotDetector.check_bot
      ((((BotDetector.new "a".data).get (by decide)).append [[]]).get (by decide))
      "zzz".data = true ∧
    BotDetector.check_bot ⟨emptyPat, [[]]⟩ ['z'] = false ∧
    BotDetector.check_bot ⟨emptyPat, [[]]⟩ [] = true := by
  refine ⟨?_, ?_, ?_⟩
  · exact claim_C9_empty_fragment.1 _ _ "zzz".data (by decide) (by decide) (by decide)
      (Option.some_get (by decide)).symm
  · exact (claim_C9_empty_fragment.2 ⟨emptyPat, [[]]⟩ ['z'] (by decide) rfl).trans (by decide)
  · exact (claim_C9_empty_fragment.2 ⟨emptyPat, [[]]⟩ [] (by decide) rfl).trans (by decide)

/-! ### Claim C1 (corrected): combined matcher versus individual fragments -/

/-- Counterexample to C1 as stated: construction succeeds on the empty
fragment set (`new("")`), whose matcher accepts the empty input, yet no
fragment of the (empty) set matches — the claimed equivalence fails at
`P = ∅`, `x = ""`. -/
theorem claim_C1_counterexample :
    (BotDetector.new "".data).map
      (fun d => (d.check_bot [],
        d.user_agent_patterns.any (fun p => fragMatch p (lowerStr [])))) =
      some (true, false) ∧
    ¬(((BotDetector.new "".data).get (by decide)).check_bot [] = true ↔
      ∃ p ∈ ((BotDetector.new "".data).get (by decide)).user_agent_patterns,
        fragMatch p (lowerStr []) = true) := by
  refine ⟨by decide, by decide⟩

/-- C1 amended: for every nonempty fragment set produced by a successful
construction, all of whose fragments compile individually, `check_bot`
accepts an input exactly when some stored fragment, compiled on its own,
matches somewhere in the folded input (the claim as stated additionally
fails for fragment sets that only compile jointly, as `new("(\n)")`
shows). -/
theorem claim_C1_semantic_equivalence (t : List Char) (d : BotDetector) (x : List Char)
    (h : BotDetector.new t = some d) (hne : d.user_agent_patterns ≠ [])
    (hall : ∀ p ∈ d.user_agent_patterns, (parseRegex p).isSome) :
    d.check_bot x = true ↔
      ∃ p ∈ d.user_agent_patterns, fragMatch p (lowerStr x) = true := by
  obtain ⟨hp, hinv⟩ := new_eq_some t d h
  obtain ⟨p0, tl, hps⟩ : ∃ p0 tl, d.user_agent_patterns = p0 :: tl := by
    cases hc : d.user_agent_patterns with
    | nil => exact absurd hc hne
    | cons p0 tl => exact ⟨p0, tl, rfl⟩
  have hp0mem : p0 ∈ parse_lines (lowerStr t) := by
    rw [← hp, hps]
    simp
  have hp0ne : p0 ≠ [] := parse_lines_ne_nil (lowerStr t) p0 hp0mem
  have hjoin_ne : joinBar d.user_agent_patterns ≠ [] := by
    rw [hps]
    exact joinBar_ne_nil_head p0 tl hp0ne
  have hparse : parseRegex (joinBar d.user_agent_patterns) = some d.user_agents_regex := by
    have h2 := hinv
    unfold BotDetector.inv at h2
    rw [to_regex_of_join_ne_nil _ hjoin_ne] at h2
    exact h2
  obtain ⟨R, hR, hsem⟩ := parseRegex_joinBar d.user_agent_patterns hne
    (fun p hp2 => Option.isSome_iff_exists.mp (hall p hp2))
  have hreg : d.user_agents_regex = R := by
    rw [hR] at hparse
    exact (Option.some_inj.mp hparse).symm
  unfold BotDetector.check_bot
  rw [hreg, hsem (lowerStr x), List.any_eq_true]

/-- Witness for the amended C1: the set from `new("bot")` flags
`"ROBOT"` because its single fragment matches the folded input. -/
theorem claim_C1_witness :
    ((BotDetector.new "bot".data).get (by decide)).check_bot "ROBOT".data = true :=
  (claim_C1_semantic_equivalence "bot".data _ "ROBOT".data
      (Option.some_get (by decide)).symm (by decide) (by decide)).mpr
    ⟨"bot".data, by decide, by decide⟩
